import Mathlib

/-!
Shallow embedding of the data-normalization and aggregation pipeline of the
LinkedIn-intelligence repository (files `linkedin_data.py` and
`build_dashboard.py`), with theorems settling the frozen claims about it.

Modelling conventions:
* Python strings are Lean `String` values (lists of characters).  Character
  case-folding is modelled for the ASCII range, which covers every keyword
  the classifier matches on.
* Python `None` / pandas `NaN` cell values are `Option.none`.
* Calendar timestamps are abstracted to integer day indices (and month
  indices for the monthly resampling), with chronological order the numeric
  order.
* Fallible operations (`raise`) are `Except String`.
-/

/-! ## Python string primitives -/

/-- Characters stripped by Python `str.strip()` with no argument
(the ASCII whitespace set; the rare non-ASCII Unicode spaces are not
modelled). -/
def isPySpace (c : Char) : Bool :=
  c = ' ' || c = '\t' || c = '\n' || c = '\x0d' || c = '\x0b' || c = '\x0c'

/-- Python `str.lower()` restricted to ASCII (all keyword matching in the
source is over ASCII text). -/
def pyLower (s : String) : String :=
  ⟨s.data.map Char.toLower⟩

/-- Python substring test `needle in hay` on character lists. -/
def hasSub (needle : List Char) : List Char → Bool
  | [] => needle.isEmpty
  | c :: t => needle.isPrefixOf (c :: t) || hasSub needle t

/-- Python `str.strip(set)`: drop characters satisfying `p` from both ends. -/
def pyStripP (p : Char → Bool) (cs : List Char) : List Char :=
  ((cs.dropWhile p).reverse.dropWhile p).reverse

/-- Python `str.replace(twoQuotes, oneQuote)`: collapse each doubled
double-quote pair left to right, as `commentary.replace` does in
`enrich_posts`. -/
def collapseQQ : List Char → List Char
  | '\"' :: '\"' :: rest => '\"' :: collapseQQ rest
  | c :: rest => c :: collapseQQ rest
  | [] => []

/-- Counts the maximal non-whitespace runs; the flag records whether the
scan is inside such a run. -/
def countTokensAux : List Char → Bool → Nat
  | [], _ => 0
  | c :: cs, inTok =>
    if isPySpace c then countTokensAux cs false
    else (if inTok then 0 else 1) + countTokensAux cs true

/-- Number of whitespace-delimited tokens, Python `len(s.split())`. -/
def countTokens (cs : List Char) : Nat :=
  countTokensAux cs false

/-! ## Seniority classifier (`linkedin_data.classify_seniority`) -/

/-- Substring membership of a lowercase keyword in the lowered title,
Python `x in pos`. -/
def kwIn (x : String) (pos : String) : Bool :=
  hasSub x.data pos.data

/-- The prioritized substring rules of `classify_seniority` over the
already-lowered title, first match wins.  The director rule runs before
the C-level keyword group, as in the source. -/
def classifyLowered (pos : String) : String :=
  if kwIn "director" pos then "Director"
  else if ["ceo", "cto", "cfo", "coo", "cro", "chief", "founder", "co-founder", "owner", "partner"].any (fun x => kwIn x pos) then "C-Level / Founder"
  else if ["vp", "vice president"].any (fun x => kwIn x pos) then "VP"
  else if ["head of", "head "].any (fun x => kwIn x pos) then "Head of"
  else if ["manager", "lead", "team lead"].any (fun x => kwIn x pos) then "Manager / Lead"
  else if ["senior", "sr.", "sr "].any (fun x => kwIn x pos) then "Senior IC"
  else if ["junior", "jr.", "intern", "trainee", "associate"].any (fun x => kwIn x pos) then "Junior / Associate"
  else "IC / Specialist"

/-- Direct embedding of `classify_seniority` on the stringified input
(after Python `str(position)`): lowercase, then the rule chain. -/
def classify_seniority (position : String) : String :=
  classifyLowered (pyLower position)

/-- Python `str(position)` for a nullable cell: `None` stringifies to
"None" before classification (the stringified-null path of the source). -/
def pyStrOfOpt (v : Option String) : String :=
  match v with
  | none => "None"
  | some s => s

/-- The classifier as called on a nullable position cell. -/
def classifySeniorityCell (v : Option String) : String :=
  classify_seniority (pyStrOfOpt v)

/-- The eight seniority tiers, in the canonical dashboard order
(`seniority_order` in `build_dashboard.py`). -/
def seniorityOrder : List String :=
  ["C-Level / Founder", "VP", "Director", "Head of", "Manager / Lead", "Senior IC", "IC / Specialist", "Junior / Associate"]

/-! ## Word-count histogram buckets (`build_dashboard.wc_buckets`) -/

/-- The bucket label a word count falls into, embedding the if/elif chain
that fills `wc_buckets`. -/
def wcBucket (w : Nat) : String :=
  if w = 0 then "0 (Repost)"
  else if w ≤ 50 then "1-50"
  else if w ≤ 100 then "51-100"
  else if w ≤ 200 then "101-200"
  else if w ≤ 300 then "201-300"
  else "300+"

/-- The six histogram labels in dictionary order from the source. -/
def wcLabels : List String :=
  ["0 (Repost)", "1-50", "51-100", "101-200", "201-300", "300+"]

/-! ## Percent decoding (`urllib.parse.unquote`) -/

/-- Value of one hexadecimal digit, or `none`. -/
def hexVal (c : Char) : Option Nat :=
  if '0' ≤ c ∧ c ≤ '9' then some (c.toNat - '0'.toNat)
  else if 'a' ≤ c ∧ c ≤ 'f' then some (c.toNat - 'a'.toNat + 10)
  else if 'A' ≤ c ∧ c ≤ 'F' then some (c.toNat - 'A'.toNat + 10)
  else none

/-- Python `urllib.parse.unquote` at the byte level: each valid `%XX`
escape becomes the character of byte value `XX`; an invalid escape keeps
its literal percent sign.  Multi-byte UTF-8 runs are modelled as one
character per byte; this is faithful for everything the URN matcher can
see, because ASCII characters of the decoded text correspond exactly to
ASCII bytes under both readings and the URN pattern is pure ASCII. -/
def unquoteChars : List Char → List Char
  | [] => []
  | c :: rest =>
    if c = '%' then
      match rest with
      | h1 :: h2 :: rest2 =>
        match hexVal h1, hexVal h2 with
        | some a, some b => Char.ofNat (16 * a + b) :: unquoteChars rest2
        | _, _ => '%' :: unquoteChars (h1 :: h2 :: rest2)
      | [h1] => ['%', h1]
      | [] => ['%']
    else c :: unquoteChars rest

/-! ## URN extraction (`linkedin_data.extract_urn`) -/

/-- Drop `pre` from the front of `cs`, or `none` when `pre` does not head
`cs`; the primitive the literal parts of the regular expression reduce
to. -/
def dropPre : List Char → List Char → Option (List Char)
  | [], cs => some cs
  | _ :: _, [] => none
  | p :: ps, c :: cs => if p = c then dropPre ps cs else none

/-- The fixed head of the pattern `urn:li:(?:share|activity|ugcPost):(\d+)`. -/
def urnHead : List Char := "urn:li:".data

/-- The three alternatives of the pattern, in the order the regular
expression lists them. -/
def urnKinds : List String := ["share", "activity", "ugcPost"]

/-- Match one alternative and the captured digit group at the start of
`rest`: the literal kind, a colon, then a maximal nonempty digit run
(greedy `\d+`). -/
def kindMatch (k : String) (rest : List Char) : Option (List Char) :=
  match dropPre (k.data ++ [':']) rest with
  | none => none
  | some r2 =>
    let ds := r2.takeWhile Char.isDigit
    if ds.isEmpty then none else some ds

/-- Match the whole pattern at the start of `cs`, returning the captured
digits. -/
def urnMatchAt (cs : List Char) : Option (List Char) :=
  match dropPre urnHead cs with
  | none => none
  | some rest =>
    match kindMatch "share" rest with
    | some ds => some ds
    | none =>
      match kindMatch "activity" rest with
      | some ds => some ds
      | none => kindMatch "ugcPost" rest

/-- Leftmost search, as `re.search`: try the pattern at position 0, then
shift by one character. -/
def urnSearch : List Char → Option (List Char)
  | [] => urnMatchAt []
  | c :: rest =>
    match urnMatchAt (c :: rest) with
    | some ds => some ds
    | none => urnSearch rest

/-- A Python value as `extract_urn` discriminates it: a string, or
anything else (`None`, a float `NaN` cell, ...), which the
`isinstance(url, str)` guard sends straight to `None`. -/
inductive PyVal where
  | pstr (s : String) : PyVal
  | other : PyVal
deriving DecidableEq

/-- Direct embedding of `extract_urn`: non-strings give `none`; a string
is percent-decoded and searched for the first URN pattern. -/
def extract_urn : PyVal → Option String
  | .pstr s =>
    match urnSearch (unquoteChars s.data) with
    | some ds => some ⟨ds⟩
    | none => none
  | .other => none

/-- Reinject the result of `extract_urn` as a Python value: `None` is a
non-string, a captured identifier is a string. -/
def pyOfResult : Option String → PyVal
  | none => .other
  | some s => .pstr s

/-- Whether the first character, if any, fails to be a digit — the
greediness side condition of the captured group. -/
def headNotDigit : List Char → Bool
  | [] => true
  | c :: _ => !c.isDigit

/-- Declarative reading of the regular expression: the pattern occurs at
position `i` of `cs` with captured digits `ds` when some alternative
kind, a colon and the nonempty all-digit run `ds` follow `urn:li:` there,
and the run is maximal. -/
def urnOccursAt (cs : List Char) (i : Nat) (ds : List Char) : Prop :=
  ∃ k, k ∈ urnKinds ∧ ds ≠ [] ∧ ds.all Char.isDigit = true ∧
    ∃ t, urnHead ++ k.data ++ ':' :: (ds ++ t) = cs.drop i ∧ headNotDigit t = true

/-! ## Post enrichment (`linkedin_data.enrich_posts`, per-row core) -/

/-- One raw share row as `enrich_posts` reads it (the columns the type
classification and word count depend on; `none` is a missing/NaN cell).
Rows with a null `Date` are dropped before this code runs, so the model
covers the surviving rows. -/
structure ShareRow where
  shareCommentary : Option String
  sharedUrl : Option String
  mediaUrl : Option String
deriving DecidableEq

/-- The cleaned commentary: stringify the cell (empty for NaN), collapse
doubled quotes, strip whitespace, strip quote characters — the
`commentary` variable of the source. -/
def cleanCommentary (r : ShareRow) : List Char :=
  pyStripP (fun c => c = '\"')
    (pyStripP isPySpace (collapseQQ (r.shareCommentary.getD "").data))

/-- Derived word count of the row, `len(commentary.split())` (the
`if commentary else 0` guard agrees with `split` on the empty string). -/
def wordCountOf (r : ShareRow) : Nat :=
  countTokens (cleanCommentary r)

/-- Python truthiness of `str(MediaUrl).strip()` under the `pd.notna`
guard. -/
def hasMediaOf (r : ShareRow) : Bool :=
  match r.mediaUrl with
  | none => false
  | some u => !(pyStripP isPySpace u.data).isEmpty

/-- Python truthiness of `shared_url.strip()` where a NaN cell stringifies
to the empty string. -/
def hasLinkOf (r : ShareRow) : Bool :=
  !(pyStripP isPySpace (r.sharedUrl.getD "").data).isEmpty

/-- The content-type chain of `enrich_posts`: first matching rule wins. -/
def postTypeOf (r : ShareRow) : String :=
  if hasMediaOf r then "Media"
  else if hasLinkOf r then "Link Share"
  else if wordCountOf r > 100 then "Long Text"
  else if wordCountOf r > 0 then "Short Text"
  else "Repost"

/-! ## Monthly growth series (`build_dashboard.growth_data`)

Connection dates are abstracted to month indices (a `Nat` per calendar
month, consecutive months differing by one); a null `Connected On` cell is
`none` and is dropped by the `dropna` before resampling. -/

/-- Months spanned by the monthly resampling: every month from the
earliest to the latest observed, including empty ones, in chronological
order (pandas `resample("ME")`). -/
def monthRange (valid : List Nat) : List Nat :=
  match valid with
  | [] => []
  | d :: ds =>
    let lo := ds.foldl Nat.min d
    let hi := ds.foldl Nat.max d
    List.range' lo (hi - lo + 1)

/-- New connections per month over the resampled month axis (the `New`
column). -/
def monthlyNew (valid : List Nat) : List Nat :=
  (monthRange valid).map (fun m => valid.count m)

/-- Running sum with accumulator, pandas `cumsum`. -/
def cumsumFrom (acc : Nat) : List Nat → List Nat
  | [] => []
  | x :: xs => (acc + x) :: cumsumFrom (acc + x) xs

/-- The `Cumulative` column: prefix sums of the monthly new counts. -/
def cumsum (xs : List Nat) : List Nat :=
  cumsumFrom 0 xs

/-- The cumulative growth series for a connection table given by its
(nullable) connection months. -/
def growthCumulative (dates : List (Option Nat)) : List Nat :=
  cumsum (monthlyNew (dates.filterMap id))

/-! ## Loaders (`linkedin_data.find_export_dir`, `load_*`)

The filesystem is abstracted to the observations the loading code makes
of it: the export-directory candidates the glob patterns produce (with
modification times), and the named CSV files present in the chosen
export directory (with their parsed column/row content). -/

/-- A parsed tabular file: header columns and data rows. -/
structure CsvFile where
  cols : List String
  rows : List (List String)
deriving DecidableEq

/-- The filesystem as the loaders observe it. -/
structure ExportFS where
  /-- Directories matching `Complete_LinkedInDataExport_*` or
  `Basic_LinkedInDataExport_*` in the search dirs, with mtimes. -/
  candidates : List (String × Nat)
  /-- Files present in the export directory, by name. -/
  files : List (String × CsvFile)
deriving DecidableEq

/-- Presence lookup, `os.path.exists` plus reading the file. -/
def lookupFile (fs : ExportFS) (name : String) : Option CsvFile :=
  (fs.files.find? (fun p => p.1 == name)).map (fun p => p.2)

/-- Embedding of `find_export_dir`: the newest candidate (Python `max`
with an mtime key keeps the earliest of equal keys), or the
`FileNotFoundError` message when no candidate directory exists. -/
def find_export_dir (fs : ExportFS) : Except String String :=
  match fs.candidates with
  | [] => .error "No LinkedIn export found. Place your LinkedInDataExport folder in the project directory or 'data exports' subfolder."
  | c :: cs => .ok (cs.foldl (fun best x => if best.2 < x.2 then x else best) c).1

/-- Reading a CSV with no existence guard, as `load_connections` does:
pandas `read_csv` raises a file-not-found error for a missing path.  The
per-column normalization applied to a present file is not modelled here
(the row-level classification it feeds is modelled separately above). -/
def read_csv_strict (fs : ExportFS) (name : String) : Except String CsvFile :=
  match lookupFile fs name with
  | some f => .ok f
  | none => .error ("[Errno 2] No such file or directory: " ++ name)

/-- Embedding of `load_connections`: the required primary table, loaded
with no fallback. -/
def load_connections (fs : ExportFS) : Except String CsvFile :=
  read_csv_strict fs "Connections.csv"

/-- Columns of the empty fallback frame built by `load_shares`. -/
def sharesCols : List String :=
  ["Date", "ShareCommentary", "ShareLink", "SharedUrl", "MediaUrl", "Visibility"]

/-- Columns of the empty fallback frame built by `load_comments`. -/
def commentsCols : List String := ["Date", "Message", "Link"]

/-- Columns of the empty fallback frame built by `load_reactions`. -/
def reactionsCols : List String := ["Date", "Type", "Link"]

/-- Embedding of `load_shares`: a missing file degrades to an empty frame
with the fixed share columns. -/
def load_shares (fs : ExportFS) : CsvFile :=
  match lookupFile fs "Shares.csv" with
  | none => ⟨sharesCols, []⟩
  | some f => f

/-- Embedding of `load_comments`: a missing file degrades to an empty
frame with the fixed comment columns. -/
def load_comments (fs : ExportFS) : CsvFile :=
  match lookupFile fs "Comments.csv" with
  | none => ⟨commentsCols, []⟩
  | some f => f

/-- Embedding of `load_reactions`: a missing file degrades to an empty
frame with the fixed reaction columns. -/
def load_reactions (fs : ExportFS) : CsvFile :=
  match lookupFile fs "Reactions.csv" with
  | none => ⟨reactionsCols, []⟩
  | some f => f

/-- Embedding of `load_profile`: a missing file yields Python `None`, not
a frame. -/
def load_profile (fs : ExportFS) : Option CsvFile :=
  lookupFile fs "Profile.csv"

/-! ## Dormant selection (`build_dashboard` dormant block)

Connection dates are day indices (`Int`); `now` is the day index of
`datetime.now()` at the run. -/

/-- One processed connection row, with the fields the dormant block
reads. -/
structure Conn where
  connectedOn : Option Int
  fullName : String
  company : String
  position : String
deriving DecidableEq

/-- The comparison pandas `sort_values("Connected On")` sorts by; every
row reaching the sort has a date, so the default is never compared. -/
def connDateLe (a b : Conn) : Bool :=
  a.connectedOn.getD 0 ≤ b.connectedOn.getD 0

/-- The dormancy filter `conn_df["Connected On"] < cutoff` with
`cutoff = now - timedelta(days=730)`: a null date compares false. -/
def dormantPred (now : Int) (c : Conn) : Bool :=
  match c.connectedOn with
  | some d => decide (d < now - 730)
  | none => false

/-- Embedding of the dormant block: rows strictly older than the cutoff,
sorted oldest-first, capped at 200 rows for display. -/
def dormant_rows (conns : List Conn) (now : Int) : List Conn :=
  ((conns.filter (dormantPred now)).mergeSort connDateLe).take 200

/-- Row used in the long-text witness: a commentary of `n` one-letter
words. -/
def repWords : Nat → List Char
  | 0 => []
  | n + 1 => 'a' :: ' ' :: repWords n

/-! # Claim theorems -/

/-- C8: word-count bucketing is a partition: every word count gets
exactly one of the six labels, the ranges are 0, 1–50, 51–100, 101–200,
201–300 and 300+, with upper boundaries inclusive, no gaps and no
overlaps. -/
theorem c8_wc_bucket_partition (w : Nat) :
    wcBucket w ∈ wcLabels ∧
    (wcBucket w = "0 (Repost)" ↔ w = 0) ∧
    (wcBucket w = "1-50" ↔ 1 ≤ w ∧ w ≤ 50) ∧
    (wcBucket w = "51-100" ↔ 51 ≤ w ∧ w ≤ 100) ∧
    (wcBucket w = "101-200" ↔ 101 ≤ w ∧ w ≤ 200) ∧
    (wcBucket w = "201-300" ↔ 201 ≤ w ∧ w ≤ 300) ∧
    (wcBucket w = "300+" ↔ 301 ≤ w) := by
  unfold wcBucket wcLabels
  split_ifs with h1 h2 h3 h4 h5 <;> simp_all <;> omega

/-- C7: the seniority classifier is total and deterministic: every
nullable title cell, the empty string and `None` included, maps to one of
the eight fixed tiers, and the empty and null titles fall through to
IC / Specialist. -/
theorem c7_classifier_total :
    (∀ v : Option String, classifySeniorityCell v ∈ seniorityOrder) ∧
    classifySeniorityCell none = "IC / Specialist" ∧
    classifySeniorityCell (some "") = "IC / Specialist" := by
  refine ⟨fun v => ?_, by decide, by decide⟩
  unfold classifySeniorityCell classify_seniority classifyLowered seniorityOrder
  split_ifs <;> simp

/-- C2: the director rule is evaluated before the C-level keyword group,
so every title containing "director" case-insensitively classifies as
Director, while "Chief Technology Officer" and "CTO" classify as
C-Level / Founder. -/
theorem c2_director_priority :
    (∀ t : String, kwIn "director" (pyLower t) = true →
      classify_seniority t = "Director") ∧
    classify_seniority "Director of Engineering" = "Director" ∧
    classify_seniority "Chief Technology Officer" = "C-Level / Founder" ∧
    classify_seniority "CTO" = "C-Level / Founder" := by
  refine ⟨fun t h => ?_, by decide, by decide, by decide⟩
  unfold classify_seniority classifyLowered
  simp [h]

/-- Witness for C2 at a concrete title containing "director". -/
theorem c2_director_priority_witness :
    classify_seniority "Senior Director, Payments" = "Director" :=
  c2_director_priority.1 "Senior Director, Payments" (by decide)

/-- C6: the content type is the first matching rule of the fixed chain
has-media, has-external-link, word count over 100, word count over 0,
repost; a row matching an earlier predicate never gets a later label. -/
theorem c6_post_type_priority (r : ShareRow) :
    (hasMediaOf r = true → postTypeOf r = "Media") ∧
    (hasMediaOf r = false → hasLinkOf r = true → postTypeOf r = "Link Share") ∧
    (hasMediaOf r = false → hasLinkOf r = false → 100 < wordCountOf r →
      postTypeOf r = "Long Text") ∧
    (hasMediaOf r = false → hasLinkOf r = false → 0 < wordCountOf r →
      wordCountOf r ≤ 100 → postTypeOf r = "Short Text") ∧
    (hasMediaOf r = false → hasLinkOf r = false → wordCountOf r = 0 →
      postTypeOf r = "Repost") := by
  unfold postTypeOf
  split_ifs <;> simp_all <;> omega

set_option maxRecDepth 20000 in
/-- Witness for C6: one concrete row per rule of the chain, the media
rule also shown to shadow an attached link. -/
theorem c6_post_type_priority_witness :
    postTypeOf ⟨none, some "https://e.com", some "img.png"⟩ = "Media" ∧
    postTypeOf ⟨none, some "https://e.com", none⟩ = "Link Share" ∧
    postTypeOf ⟨some ⟨repWords 101⟩, none, none⟩ = "Long Text" ∧
    postTypeOf ⟨some "hello world", none, none⟩ = "Short Text" ∧
    postTypeOf ⟨none, none, none⟩ = "Repost" :=
  ⟨(c6_post_type_priority _).1 (by decide),
   (c6_post_type_priority _).2.1 (by decide) (by decide),
   (c6_post_type_priority _).2.2.1 (by decide) (by decide) (by decide),
   (c6_post_type_priority _).2.2.2.1 (by decide) (by decide) (by decide) (by decide),
   (c6_post_type_priority _).2.2.2.2 (by decide) (by decide) (by decide)⟩

/-- C1 counterexample: a row with empty commentary and an attached link
has word count 0 but type Link Share, so word count 0 does not imply type
Repost. -/
theorem c1_zero_iff_repost_cx :
    wordCountOf ⟨none, some "https://example.com/a", none⟩ = 0 ∧
    postTypeOf ⟨none, some "https://example.com/a", none⟩ = "Link Share" := by
  decide

/-- C1 amended: type Repost always means word count 0; restricted to rows
with neither media nor an attached link, word count 0 holds exactly for
type Repost; and a zero-word row with an attached link (and no media) is
Link Share. -/
theorem c1_zero_iff_repost (r : ShareRow) :
    (postTypeOf r = "Repost" → wordCountOf r = 0) ∧
    (hasMediaOf r = false → hasLinkOf r = false →
      (wordCountOf r = 0 ↔ postTypeOf r = "Repost")) ∧
    (wordCountOf r = 0 → hasMediaOf r = false → hasLinkOf r = true →
      postTypeOf r = "Link Share") := by
  unfold postTypeOf
  split_ifs <;> simp_all <;> omega

/-- Witness for C1 at the all-empty row, which is a Repost of word
count 0. -/
theorem c1_zero_iff_repost_witness :
    postTypeOf ⟨none, none, none⟩ = "Repost" :=
  ((c1_zero_iff_repost _).2.1 (by decide) (by decide)).mp (by decide)

/-- A left fold by `Nat.min` is at most its initial value. -/
theorem foldl_min_le_self : ∀ (ds : List Nat) (a : Nat), ds.foldl Nat.min a ≤ a := by
  intro ds
  induction ds with
  | nil => intro a; exact Nat.le_refl a
  | cons d ds ih =>
    intro a
    exact Nat.le_trans (ih (Nat.min a d)) (Nat.min_le_left a d)

/-- A left fold by `Nat.min` is at most every list element. -/
theorem foldl_min_le_mem : ∀ (ds : List Nat) (a x : Nat), x ∈ ds → ds.foldl Nat.min a ≤ x := by
  intro ds
  induction ds with
  | nil => intro a x hx; cases hx
  | cons d ds ih =>
    intro a x hx
    cases hx with
    | head => exact Nat.le_trans (foldl_min_le_self ds (Nat.min a d)) (Nat.min_le_right a d)
    | tail _ hmem => exact ih (Nat.min a d) x hmem

/-- A left fold by `Nat.max` is at least its initial value. -/
theorem le_foldl_max_self : ∀ (ds : List Nat) (a : Nat), a ≤ ds.foldl Nat.max a := by
  intro ds
  induction ds with
  | nil => intro a; exact Nat.le_refl a
  | cons d ds ih =>
    intro a
    exact Nat.le_trans (Nat.le_max_left a d) (ih (Nat.max a d))

/-- A left fold by `Nat.max` is at least every list element. -/
theorem le_foldl_max_mem : ∀ (ds : List Nat) (a x : Nat), x ∈ ds → x ≤ ds.foldl Nat.max a := by
  intro ds
  induction ds with
  | nil => intro a x hx; cases hx
  | cons d ds ih =>
    intro a x hx
    cases hx with
    | head => exact Nat.le_trans (Nat.le_max_right a d) (le_foldl_max_self ds (Nat.max a d))
    | tail _ hmem => exact ih (Nat.max a d) x hmem

/-- Every observed month lies on the resampled month axis. -/
theorem mem_monthRange (valid : List Nat) : ∀ d ∈ valid, d ∈ monthRange valid := by
  cases valid with
  | nil => intro d hd; cases hd
  | cons v vs =>
    intro d hd
    unfold monthRange
    rw [List.mem_range'_1]
    have hlo_v : vs.foldl Nat.min v ≤ v := foldl_min_le_self vs v
    have hv_hi : v ≤ vs.foldl Nat.max v := le_foldl_max_self vs v
    have hlo : vs.foldl Nat.min v ≤ d := by
      cases hd with
      | head => exact hlo_v
      | tail _ hmem => exact foldl_min_le_mem vs v d hmem
    have hhi : d ≤ vs.foldl Nat.max v := by
      cases hd with
      | head => exact hv_hi
      | tail _ hmem => exact le_foldl_max_mem vs v d hmem
    omega

/-- The resampled month axis lists each month once. -/
theorem monthRange_nodup (valid : List Nat) : (monthRange valid).Nodup := by
  cases valid with
  | nil => simp [monthRange]
  | cons v vs => exact List.nodup_range' _ _

/-- The resampled month axis of a nonempty date list is nonempty. -/
theorem monthRange_ne_nil (valid : List Nat) (h : valid ≠ []) : monthRange valid ≠ [] := by
  cases valid with
  | nil => exact absurd rfl h
  | cons v vs =>
    intro hnil
    have := congrArg List.length hnil
    simp [monthRange, List.length_range'] at this

/-- Pointwise sums split. -/
theorem sum_map_add (f g : Nat → Nat) : ∀ (ms : List Nat),
    (ms.map (fun m => f m + g m)).sum = (ms.map f).sum + (ms.map g).sum := by
  intro ms
  induction ms with
  | nil => simp
  | cons m ms ih => simp [ih]; omega

/-- Summing the indicator of `d` over `ms` counts the occurrences of `d`
in `ms`. -/
theorem sum_indicator (d : Nat) : ∀ (ms : List Nat),
    (ms.map (fun m => if d = m then 1 else 0)).sum = ms.count d := by
  intro ms
  induction ms with
  | nil => simp
  | cons m ms ih =>
    rw [List.map_cons, List.sum_cons, List.count_cons, ih]
    by_cases h : d = m
    · simp [h]; omega
    · have hb : (m == d) = false := by simp; omega
      simp [h, hb]

/-- Grouping by the distinct months of an axis that covers every date
accounts for each date exactly once. -/
theorem sum_map_count : ∀ (valid ms : List Nat), ms.Nodup → (∀ d ∈ valid, d ∈ ms) →
    (ms.map (fun m => valid.count m)).sum = valid.length := by
  intro valid
  induction valid with
  | nil => intro ms _ _; simp
  | cons d rest ih =>
    intro ms hnd hmem
    have hcount : ∀ m : Nat, List.count m (d :: rest) = List.count m rest + if d = m then 1 else 0 := by
      intro m
      rw [List.count_cons]
      by_cases h : d = m <;> simp [h]
    have h1 : (ms.map (fun m => List.count m (d :: rest))).sum
        = (ms.map (fun m => List.count m rest)).sum + (ms.map (fun m => if d = m then 1 else 0)).sum := by
      simp only [hcount]
      rw [sum_map_add]
    show (ms.map (fun m => List.count m (d :: rest))).sum = _
    rw [h1, sum_indicator, ih ms hnd (fun x hx => hmem x (List.mem_cons_of_mem d hx)),
      List.count_eq_one_of_mem hnd (hmem d (List.mem_cons_self d rest))]
    simp

/-- Every entry of a running sum is at least the starting accumulator. -/
theorem le_mem_cumsumFrom : ∀ (xs : List Nat) (acc : Nat), ∀ y ∈ cumsumFrom acc xs, acc ≤ y := by
  intro xs
  induction xs with
  | nil => intro acc y hy; cases hy
  | cons x xs ih =>
    intro acc y hy
    cases hy with
    | head => omega
    | tail _ hmem => have := ih (acc + x) y hmem; omega

/-- A running sum of nonnegative counts is monotonically
non-decreasing. -/
theorem cumsumFrom_pairwise : ∀ (xs : List Nat) (acc : Nat),
    (cumsumFrom acc xs).Pairwise (· ≤ ·) := by
  intro xs
  induction xs with
  | nil => intro acc; exact List.Pairwise.nil
  | cons x xs ih =>
    intro acc
    exact List.Pairwise.cons (fun y hy => le_mem_cumsumFrom xs (acc + x) y hy) (ih (acc + x))

/-- The last entry of a running sum over a nonempty list is the
accumulator plus the whole sum. -/
theorem cumsumFrom_getLast : ∀ (xs : List Nat) (acc : Nat), xs ≠ [] →
    (cumsumFrom acc xs).getLast? = some (acc + xs.sum) := by
  intro xs
  induction xs with
  | nil => intro acc h; exact absurd rfl h
  | cons x xs ih =>
    intro acc _
    cases xs with
    | nil => simp [cumsumFrom]
    | cons y ys =>
      have h2 := ih (acc + x) (by simp)
      show List.getLast? ((acc + x) :: cumsumFrom (acc + x) (y :: ys)) = _
      rw [show cumsumFrom (acc + x) (y :: ys) = (acc + x + y) :: cumsumFrom (acc + x + y) ys from rfl,
        List.getLast?_cons_cons,
        show (acc + x + y) :: cumsumFrom (acc + x + y) ys = cumsumFrom (acc + x) (y :: ys) from rfl,
        h2]
      congr 1
      simp
      omega

/-- Monthly new-connection counts over the resampled axis add up to the
number of dated connections. -/
theorem monthlyNew_sum (valid : List Nat) : (monthlyNew valid).sum = valid.length :=
  sum_map_count valid (monthRange valid) (monthRange_nodup valid) (mem_monthRange valid)

/-- C5: the cumulative monthly growth series is monotonically
non-decreasing, and for a table with at least one dated connection its
final value is the number of connections with a non-null connection
date. -/
theorem c5_growth_series :
    (∀ dates : List (Option Nat), (growthCumulative dates).Pairwise (· ≤ ·)) ∧
    (∀ dates : List (Option Nat), dates.filterMap id ≠ [] →
      (growthCumulative dates).getLast? = some (dates.filterMap id).length) := by
  constructor
  · intro dates
    exact cumsumFrom_pairwise (monthlyNew (dates.filterMap id)) 0
  · intro dates h
    have hne : monthlyNew (dates.filterMap id) ≠ [] := by
      unfold monthlyNew
      intro hnil
      exact monthRange_ne_nil _ h (List.map_eq_nil_iff.mp hnil)
    unfold growthCumulative cumsum
    rw [cumsumFrom_getLast _ 0 hne, monthlyNew_sum]
    simp

/-- Witness for C5 at a concrete three-date table: the series ends at 3,
the number of dated rows. -/
theorem c5_growth_series_witness :
    (growthCumulative [some 3, none, some 5, some 3]).getLast? = some 3 :=
  c5_growth_series.2 [some 3, none, some 5, some 3] (by decide)

/-- C4 counterexample: with the profile file absent the profile loader
returns Python None — no table at all — where the claim promises an
empty but correctly-typed table. -/
theorem c4_fault_partition_cx :
    load_profile ⟨[("Complete_LinkedInDataExport_2025", 7)], []⟩ = none ∧
    (load_profile ⟨[("Complete_LinkedInDataExport_2025", 7)], []⟩).isSome = false := by
  decide

/-- C4 amended: no export directory at all fails with the clear
export-not-found message; a missing required connection list fails (with
the file reader error); missing shares, comments or reactions degrade to
empty frames with the fixed columns of that source; a missing profile
yields the explicit absent marker None rather than a table. -/
theorem c4_fault_partition :
    (∀ fs : ExportFS, fs.candidates = [] →
      find_export_dir fs = .error "No LinkedIn export found. Place your LinkedInDataExport folder in the project directory or 'data exports' subfolder.") ∧
    (∀ fs : ExportFS, lookupFile fs "Connections.csv" = none →
      load_connections fs = .error "[Errno 2] No such file or directory: Connections.csv") ∧
    (∀ fs : ExportFS, lookupFile fs "Shares.csv" = none →
      load_shares fs = ⟨sharesCols, []⟩) ∧
    (∀ fs : ExportFS, lookupFile fs "Comments.csv" = none →
      load_comments fs = ⟨commentsCols, []⟩) ∧
    (∀ fs : ExportFS, lookupFile fs "Reactions.csv" = none →
      load_reactions fs = ⟨reactionsCols, []⟩) ∧
    (∀ fs : ExportFS, lookupFile fs "Profile.csv" = none →
      load_profile fs = none) := by
  refine ⟨fun fs h => ?_, fun fs h => ?_, fun fs h => ?_, fun fs h => ?_,
    fun fs h => ?_, fun fs h => ?_⟩
  · unfold find_export_dir; rw [h]
  · unfold load_connections read_csv_strict; rw [h]; rfl
  · unfold load_shares; rw [h]
  · unfold load_comments; rw [h]
  · unfold load_reactions; rw [h]
  · unfold load_profile at *; exact h

/-- C10 counterexample: the dormant selection reads the clock, so the
same one-row connection table yields different aggregates at two run
times — it is not a function of the entity sets alone. -/
theorem c10_dormant_pure_cx :
    dormant_rows [⟨some 0, "A B", "Acme", "CEO"⟩] 1000 ≠
      dormant_rows [⟨some 0, "A B", "Acme", "CEO"⟩] 500 := by
  have h1 : dormant_rows [⟨some 0, "A B", "Acme", "CEO"⟩] 1000
      = [⟨some 0, "A B", "Acme", "CEO"⟩] := by
    norm_num [dormant_rows, dormantPred, List.filter_cons]
  have h2 : dormant_rows [⟨some 0, "A B", "Acme", "CEO"⟩] 500 = [] := by
    norm_num [dormant_rows, dormantPred, List.filter_cons]
  rw [h1, h2]
  simp

/-- C10 amended: the dormant selection is a pure function of the
connection table and the run time: it returns only rows of the input
table whose date is strictly older than the 730-day cutoff before the
run time, sorted oldest-first, capped at 200. -/
theorem c10_dormant_characterization (conns : List Conn) (now : Int) :
    (∀ c ∈ dormant_rows conns now,
      c ∈ conns ∧ ∃ d, c.connectedOn = some d ∧ d < now - 730) ∧
    (dormant_rows conns now).Pairwise (fun a b => connDateLe a b = true) ∧
    (dormant_rows conns now).length ≤ 200 := by
  unfold dormant_rows
  refine ⟨?_, ?_, ?_⟩
  · intro c hc
    have hms : c ∈ (conns.filter (dormantPred now)).mergeSort connDateLe :=
      List.mem_of_mem_take hc
    have hf : c ∈ conns.filter (dormantPred now) :=
      (List.mergeSort_perm _ connDateLe).mem_iff.mp hms
    rw [List.mem_filter] at hf
    refine ⟨hf.1, ?_⟩
    have hp := hf.2
    unfold dormantPred at hp
    cases hcd : c.connectedOn with
    | none => rw [hcd] at hp; simp at hp
    | some d =>
      rw [hcd] at hp
      exact ⟨d, rfl, by simpa using hp⟩
  · apply List.Pairwise.sublist (List.take_sublist _ _)
    apply List.sorted_mergeSort
    · intro a b c hab hbc
      simp only [connDateLe, decide_eq_true_eq] at *
      omega
    · intro a b
      simp only [connDateLe, Bool.or_eq_true, decide_eq_true_eq]
      omega
  · exact List.length_take_le _ _

/-- Witness for C10 at a one-row table: the sole dormant row is a table
row dated before the cutoff. -/
theorem c10_dormant_characterization_witness :
    (⟨some 0, "A B", "Acme", "CEO"⟩ : Conn) ∈ [(⟨some 0, "A B", "Acme", "CEO"⟩ : Conn)] ∧
    ∃ d, (⟨some 0, "A B", "Acme", "CEO"⟩ : Conn).connectedOn = some d ∧ d < 1000 - 730 :=
  (c10_dormant_characterization [⟨some 0, "A B", "Acme", "CEO"⟩] 1000).1
    ⟨some 0, "A B", "Acme", "CEO"⟩
    (by norm_num [dormant_rows, dormantPred, List.filter_cons])

/-- Witness for C4 on the empty filesystem: the discovery error fires and
every optional loader degrades. -/
theorem c4_fault_partition_witness :
    find_export_dir ⟨[], []⟩ = .error "No LinkedIn export found. Place your LinkedInDataExport folder in the project directory or 'data exports' subfolder." ∧
    load_connections ⟨[], []⟩ = .error "[Errno 2] No such file or directory: Connections.csv" ∧
    load_shares ⟨[], []⟩ = ⟨sharesCols, []⟩ ∧
    load_comments ⟨[], []⟩ = ⟨commentsCols, []⟩ ∧
    load_reactions ⟨[], []⟩ = ⟨reactionsCols, []⟩ ∧
    load_profile ⟨[], []⟩ = none :=
  ⟨c4_fault_partition.1 _ rfl, c4_fault_partition.2.1 _ rfl,
   c4_fault_partition.2.2.1 _ rfl, c4_fault_partition.2.2.2.1 _ rfl,
   c4_fault_partition.2.2.2.2.1 _ rfl, c4_fault_partition.2.2.2.2.2 _ rfl⟩

/-- Dropping a literal head succeeds exactly on lists that extend it. -/
theorem dropPre_eq_some_iff : ∀ (p cs r : List Char), dropPre p cs = some r ↔ cs = p ++ r := by
  intro p
  induction p with
  | nil =>
    intro cs r
    simp [dropPre]
  | cons x xs ih =>
    intro cs r
    cases cs with
    | nil =>
      simp [dropPre]
    | cons c cs2 =>
      by_cases h : x = c
      · subst h
        rw [show dropPre (x :: xs) (x :: cs2) = dropPre xs cs2 from by simp [dropPre]]
        rw [ih cs2 r]
        simp
      · rw [show dropPre (x :: xs) (c :: cs2) = none from by simp [dropPre, h]]
        constructor
        · intro hfalse; cases hfalse
        · intro heq
          rw [List.cons_append, List.cons.injEq] at heq
          exact absurd heq.1.symm h

/-- The digit run taken by the capture group is all digits. -/
theorem takeWhile_digits_all : ∀ (l : List Char), (l.takeWhile Char.isDigit).all Char.isDigit = true := by
  intro l
  induction l with
  | nil => rfl
  | cons c cs ih =>
    by_cases h : c.isDigit = true
    · simp [List.takeWhile_cons, h, ih]
    · simp [List.takeWhile_cons, h]

/-- What remains after the maximal digit run does not start with a
digit. -/
theorem headNotDigit_dropWhile : ∀ (l : List Char), headNotDigit (l.dropWhile Char.isDigit) = true := by
  intro l
  induction l with
  | nil => rfl
  | cons c cs ih =>
    by_cases h : c.isDigit = true
    · simp [List.dropWhile_cons, h, ih]
    · rw [List.dropWhile_cons, if_neg (by simp [h])]
      unfold headNotDigit
      simp [h]

/-- An all-digit run followed by a non-digit boundary is exactly what the
greedy digit capture takes. -/
theorem takeWhile_digits_append : ∀ (ds t : List Char), ds.all Char.isDigit = true →
    headNotDigit t = true → (ds ++ t).takeWhile Char.isDigit = ds := by
  intro ds
  induction ds with
  | nil =>
    intro t _ ht
    cases t with
    | nil => rfl
    | cons c cs =>
      have hc : c.isDigit = false := by
        unfold headNotDigit at ht
        simpa using ht
      simp [List.takeWhile_cons, hc]
  | cons d ds ih =>
    intro t hall ht
    rw [List.all_cons, Bool.and_eq_true] at hall
    simp [List.takeWhile_cons, hall.1, ih t hall.2 ht]

/-- One alternative of the pattern matches at the start of `rest` exactly
when `rest` is that literal kind, a colon, then a maximal nonempty digit
run and arbitrary tail. -/
theorem kindMatch_eq_some_iff (k : String) (rest ds : List Char) :
    kindMatch k rest = some ds ↔
      (ds ≠ [] ∧ ds.all Char.isDigit = true ∧
        ∃ t, k.data ++ ':' :: (ds ++ t) = rest ∧ headNotDigit t = true) := by
  unfold kindMatch
  cases h : dropPre (k.data ++ [':']) rest with
  | none =>
    constructor
    · intro hfalse; cases hfalse
    · rintro ⟨hne, hall, t, heq, hnd⟩
      exfalso
      have hsome : dropPre (k.data ++ [':']) rest = some (ds ++ t) := by
        rw [dropPre_eq_some_iff, ← heq]
        simp
      rw [h] at hsome
      cases hsome
  | some r2 =>
    have hrest : rest = (k.data ++ [':']) ++ r2 := (dropPre_eq_some_iff _ _ _).mp h
    show (if (List.takeWhile Char.isDigit r2).isEmpty = true then none
        else some (List.takeWhile Char.isDigit r2)) = some ds ↔ _
    by_cases hemp : (r2.takeWhile Char.isDigit).isEmpty = true
    · rw [if_pos hemp]
      constructor
      · intro hfalse; cases hfalse
      · rintro ⟨hne, hall, t, heq, hnd⟩
        exfalso
        have hr2 : r2 = ds ++ t := by
          apply @List.append_cancel_left Char (k.data ++ [':']) _ _
          rw [← hrest, ← heq]
          simp
        rw [hr2, takeWhile_digits_append ds t hall hnd, List.isEmpty_iff] at hemp
        exact hne hemp
    · rw [if_neg hemp]
      constructor
      · intro hsome
        injection hsome with hds
        refine ⟨?_, ?_, ⟨r2.dropWhile Char.isDigit, ?_, ?_⟩⟩
        · rw [← hds]
          intro hnil
          rw [hnil] at hemp
          exact hemp rfl
        · rw [← hds]; exact takeWhile_digits_all r2
        · rw [hrest, ← hds]
          simp [List.takeWhile_append_dropWhile]
        · exact headNotDigit_dropWhile r2
      · rintro ⟨hne, hall, t, heq, hnd⟩
        have hr2 : r2 = ds ++ t := by
          apply @List.append_cancel_left Char (k.data ++ [':']) _ _
          rw [← hrest, ← heq]
          simp
        rw [hr2, takeWhile_digits_append ds t hall hnd]

/-- The full pattern matches at position 0 exactly when the declarative
occurrence predicate holds there. -/
theorem urnMatchAt_eq_some_iff (cs ds : List Char) :
    urnMatchAt cs = some ds ↔ urnOccursAt cs 0 ds := by
  unfold urnMatchAt urnOccursAt
  simp only [List.drop_zero]
  cases h : dropPre urnHead cs with
  | none =>
    constructor
    · intro hf; cases hf
    · rintro ⟨k, hk, hne, hall, t, heq, hnd⟩
      exfalso
      have hsome : dropPre urnHead cs = some (k.data ++ ':' :: (ds ++ t)) := by
        rw [dropPre_eq_some_iff, ← heq]
        simp [List.append_assoc]
      rw [h] at hsome
      cases hsome
  | some rest =>
    have hcs : cs = urnHead ++ rest := (dropPre_eq_some_iff _ _ _).mp h
    have hXiff : ∀ kd X : List Char, urnHead ++ kd ++ X = cs ↔ kd ++ X = rest := by
      intro kd X
      rw [hcs, List.append_assoc]
      constructor
      · exact List.append_cancel_left
      · intro hx; rw [hx]
    simp only [hXiff]
    cases h1 : kindMatch "share" rest with
    | some ds1 =>
      show some ds1 = some ds ↔ _
      obtain ⟨hne1, hall1, t1, heq1, hnd1⟩ := (kindMatch_eq_some_iff "share" rest ds1).mp h1
      constructor
      · intro hsome
        injection hsome with hds
        subst hds
        exact ⟨"share", by simp [urnKinds], hne1, hall1, t1, heq1, hnd1⟩
      · rintro ⟨k, hk, hne, hall, t, heq, hnd⟩
        simp only [urnKinds, List.mem_cons, List.not_mem_nil, or_false] at hk
        rcases hk with rfl | rfl | rfl
        · have h2 := (kindMatch_eq_some_iff "share" rest ds).mpr ⟨hne, hall, t, heq, hnd⟩
          rw [h1] at h2
          injection h2 with h3
          rw [h3]
        · exfalso
          have e1 : rest.head? = some 's' := by rw [← heq1]; rfl
          have e2 : rest.head? = some 'a' := by rw [← heq]; rfl
          exact absurd (e1.symm.trans e2) (by decide)
        · exfalso
          have e1 : rest.head? = some 's' := by rw [← heq1]; rfl
          have e2 : rest.head? = some 'u' := by rw [← heq]; rfl
          exact absurd (e1.symm.trans e2) (by decide)
    | none =>
      cases h2 : kindMatch "activity" rest with
      | some ds1 =>
        show some ds1 = some ds ↔ _
        obtain ⟨hne1, hall1, t1, heq1, hnd1⟩ := (kindMatch_eq_some_iff "activity" rest ds1).mp h2
        constructor
        · intro hsome
          injection hsome with hds
          subst hds
          exact ⟨"activity", by simp [urnKinds], hne1, hall1, t1, heq1, hnd1⟩
        · rintro ⟨k, hk, hne, hall, t, heq, hnd⟩
          simp only [urnKinds, List.mem_cons, List.not_mem_nil, or_false] at hk
          rcases hk with rfl | rfl | rfl
          · exfalso
            have h3 := (kindMatch_eq_some_iff "share" rest ds).mpr ⟨hne, hall, t, heq, hnd⟩
            rw [h1] at h3
            cases h3
          · have h3 := (kindMatch_eq_some_iff "activity" rest ds).mpr ⟨hne, hall, t, heq, hnd⟩
            rw [h2] at h3
            injection h3 with h4
            rw [h4]
          · exfalso
            have e1 : rest.head? = some 'a' := by rw [← heq1]; rfl
            have e2 : rest.head? = some 'u' := by rw [← heq]; rfl
            exact absurd (e1.symm.trans e2) (by decide)
      | none =>
        show kindMatch "ugcPost" rest = some ds ↔ _
        rw [kindMatch_eq_some_iff]
        constructor
        · rintro ⟨hne, hall, t, heq, hnd⟩
          exact ⟨"ugcPost", by simp [urnKinds], hne, hall, t, heq, hnd⟩
        · rintro ⟨k, hk, hne, hall, t, heq, hnd⟩
          simp only [urnKinds, List.mem_cons, List.not_mem_nil, or_false] at hk
          rcases hk with rfl | rfl | rfl
          · exfalso
            have h3 := (kindMatch_eq_some_iff "share" rest ds).mpr ⟨hne, hall, t, heq, hnd⟩
            rw [h1] at h3
            cases h3
          · exfalso
            have h3 := (kindMatch_eq_some_iff "activity" rest ds).mpr ⟨hne, hall, t, heq, hnd⟩
            rw [h2] at h3
            cases h3
          · exact ⟨hne, hall, t, heq, hnd⟩

/-- Shifting the search window by one character shifts the occurrence
index by one. -/
theorem urnOccursAt_succ_iff (c : Char) (cs : List Char) (i : Nat) (ds : List Char) :
    urnOccursAt (c :: cs) (i + 1) ds ↔ urnOccursAt cs i ds := by
  unfold urnOccursAt
  rw [List.drop_succ_cons]

/-- The leftmost search returns `ds` exactly when the pattern occurs with
digits `ds` at some position before which it occurs nowhere. -/
theorem urnSearch_eq_some_iff : ∀ (cs ds : List Char), urnSearch cs = some ds ↔
    ∃ i, urnOccursAt cs i ds ∧ ∀ j ds2, j < i → ¬ urnOccursAt cs j ds2 := by
  intro cs
  induction cs with
  | nil =>
    intro ds
    constructor
    · intro h
      rw [show urnSearch [] = none from rfl] at h
      cases h
    · rintro ⟨i, ⟨k, hk, hne, hall, t, heq, hnd⟩, _⟩
      exfalso
      rw [List.drop_nil] at heq
      rw [List.append_eq_nil, List.append_eq_nil] at heq
      exact absurd heq.1.1 (by decide)
  | cons c rest ih =>
    intro ds
    cases h : urnMatchAt (c :: rest) with
    | some ds0 =>
      have hL : urnSearch (c :: rest) = some ds0 := by
        simp only [urnSearch]
        rw [h]
      rw [hL]
      constructor
      · intro hsome
        injection hsome with hds
        subst hds
        exact ⟨0, (urnMatchAt_eq_some_iff _ _).mp h, fun j ds2 hj => absurd hj (Nat.not_lt_zero j)⟩
      · rintro ⟨i, hocc, hmin⟩
        cases i with
        | zero =>
          have h2 := (urnMatchAt_eq_some_iff (c :: rest) ds).mpr hocc
          rw [h] at h2
          injection h2 with h3
          rw [h3]
        | succ i0 =>
          exact absurd ((urnMatchAt_eq_some_iff _ _).mp h)
            (hmin 0 ds0 (Nat.succ_pos i0))
    | none =>
      have hL : urnSearch (c :: rest) = urnSearch rest := by
        simp only [urnSearch]
        rw [h]
      rw [hL, ih ds]
      constructor
      · rintro ⟨i, hocc, hmin⟩
        refine ⟨i + 1, (urnOccursAt_succ_iff c rest i ds).mpr hocc, ?_⟩
        intro j ds2 hj hocc2
        cases j with
        | zero =>
          have h2 := (urnMatchAt_eq_some_iff _ _).mpr hocc2
          rw [h] at h2
          cases h2
        | succ j0 =>
          exact hmin j0 ds2 (by omega) ((urnOccursAt_succ_iff c rest j0 ds2).mp hocc2)
      · rintro ⟨i, hocc, hmin⟩
        cases i with
        | zero =>
          have h2 := (urnMatchAt_eq_some_iff _ _).mpr hocc
          rw [h] at h2
          cases h2
        | succ i0 =>
          refine ⟨i0, (urnOccursAt_succ_iff c rest i0 ds).mp hocc, ?_⟩
          intro j ds2 hj hocc2
          exact hmin (j + 1) ds2 (by omega) ((urnOccursAt_succ_iff c rest j ds2).mpr hocc2)

/-- The leftmost search fails exactly when the pattern occurs nowhere. -/
theorem urnSearch_eq_none_iff : ∀ (cs : List Char), urnSearch cs = none ↔
    ∀ i ds, ¬ urnOccursAt cs i ds := by
  intro cs
  induction cs with
  | nil =>
    constructor
    · rintro _ i ds ⟨k, hk, hne, hall, t, heq, hnd⟩
      rw [List.drop_nil] at heq
      rw [List.append_eq_nil, List.append_eq_nil] at heq
      exact absurd heq.1.1 (by decide)
    · intro _; rfl
  | cons c rest ih =>
    cases h : urnMatchAt (c :: rest) with
    | some ds0 =>
      have hL : urnSearch (c :: rest) = some ds0 := by
        simp only [urnSearch]
        rw [h]
      rw [hL]
      constructor
      · intro hf; cases hf
      · intro hnone
        exact absurd ((urnMatchAt_eq_some_iff _ _).mp h) (hnone 0 ds0)
    | none =>
      have hL : urnSearch (c :: rest) = urnSearch rest := by
        simp only [urnSearch]
        rw [h]
      rw [hL, ih]
      constructor
      · intro hnone i ds hocc
        cases i with
        | zero =>
          have h2 := (urnMatchAt_eq_some_iff _ _).mpr hocc
          rw [h] at h2
          cases h2
        | succ i0 =>
          exact hnone i0 ds ((urnOccursAt_succ_iff c rest i0 ds).mp hocc)
      · intro hnone i ds hocc
        exact hnone (i + 1) ds ((urnOccursAt_succ_iff c rest i ds).mpr hocc)

/-- Occurrence at position `i` is a pattern match at the head of the
`i`-th suffix. -/
theorem urnOccursAt_iff_matchAt (cs : List Char) (i : Nat) (ds : List Char) :
    urnOccursAt cs i ds ↔ urnMatchAt (cs.drop i) = some ds := by
  rw [urnMatchAt_eq_some_iff]
  unfold urnOccursAt
  simp [List.drop_zero]

/-- C3: identifier extraction is total: any non-string input yields null;
a string input is percent-decoded and yields exactly the captured digits
of the leftmost URN pattern occurrence when one exists, and null exactly
when the pattern occurs nowhere in the decoded text. -/
theorem c3_extract_urn_contract :
    extract_urn PyVal.other = none ∧
    (∀ (s ds : String), extract_urn (.pstr s) = some ds ↔
      ∃ i, urnOccursAt (unquoteChars s.data) i ds.data ∧
        ∀ j ds2, j < i → ¬ urnOccursAt (unquoteChars s.data) j ds2) ∧
    (∀ s : String, extract_urn (.pstr s) = none ↔
      ∀ i ds, ¬ urnOccursAt (unquoteChars s.data) i ds) := by
  refine ⟨rfl, ?_, ?_⟩
  · intro s ds
    obtain ⟨dsl⟩ := ds
    cases h : urnSearch (unquoteChars s.data) with
    | some l =>
      have hL : extract_urn (.pstr s) = some ⟨l⟩ := by
        simp only [extract_urn]
        rw [h]
      rw [hL]
      rw [urnSearch_eq_some_iff] at h
      constructor
      · intro hsome
        injection hsome with hds
        injection hds with hds2
        subst hds2
        exact h
      · rintro ⟨i2, ho2, hm2⟩
        obtain ⟨i1, ho1, hm1⟩ := h
        have hii : i1 = i2 := by
          rcases Nat.lt_trichotomy i1 i2 with hlt | heq | hgt
          · exact absurd ho1 (hm2 i1 l hlt)
          · exact heq
          · exact absurd ho2 (hm1 i2 dsl hgt)
        subst hii
        rw [urnOccursAt_iff_matchAt] at ho1 ho2
        rw [ho1] at ho2
        injection ho2 with hl
        rw [hl]
    | none =>
      have hL : extract_urn (.pstr s) = none := by
        simp only [extract_urn]
        rw [h]
      rw [hL]
      rw [urnSearch_eq_none_iff] at h
      constructor
      · intro hf; cases hf
      · rintro ⟨i, ho, _⟩
        exact absurd ho (h i dsl)
  · intro s
    cases h : urnSearch (unquoteChars s.data) with
    | some l =>
      have hL : extract_urn (.pstr s) = some ⟨l⟩ := by
        simp only [extract_urn]
        rw [h]
      rw [hL]
      rw [urnSearch_eq_some_iff] at h
      obtain ⟨i, ho, _⟩ := h
      constructor
      · intro hf; cases hf
      · intro hnone
        exact absurd ho (hnone i l)
    | none =>
      have hL : extract_urn (.pstr s) = none := by
        simp only [extract_urn]
        rw [h]
      rw [hL]
      rw [urnSearch_eq_none_iff] at h
      exact ⟨fun _ => h, fun _ => rfl⟩

/-- Witness for C3: a concrete URL whose leftmost URN occurrence is at
position 0 with digits 42. -/
theorem c3_extract_urn_contract_witness :
    extract_urn (.pstr "urn:li:share:42") = some "42" :=
  (c3_extract_urn_contract.2.1 "urn:li:share:42" "42").mpr
    ⟨0,
     ⟨"share", by decide, by decide, by decide, [], by decide, by decide⟩,
     fun j ds2 hj => absurd hj (Nat.not_lt_zero j)⟩

/-- Digits captured by a successful search are all digits. -/
theorem urnSearch_all_digits (cs ds : List Char) (h : urnSearch cs = some ds) :
    ds.all Char.isDigit = true := by
  rw [urnSearch_eq_some_iff] at h
  obtain ⟨i, ⟨k, hk, hne, hall, t, heq, hnd⟩, _⟩ := h
  exact hall

/-- Percent decoding is the identity on all-digit text (no percent sign
occurs). -/
theorem unquoteChars_digits : ∀ (cs : List Char), cs.all Char.isDigit = true →
    unquoteChars cs = cs := by
  intro cs
  induction cs with
  | nil => intro _; rfl
  | cons c rest ih =>
    intro hall
    rw [List.all_cons, Bool.and_eq_true] at hall
    have hc : ¬ c = '%' := by
      intro hc
      rw [hc] at hall
      exact absurd hall.1 (by decide)
    rw [unquoteChars.eq_def]
    simp only [if_neg hc]
    rw [ih hall.2]

/-- The URN pattern cannot occur inside all-digit text: its head
character is not a digit. -/
theorem no_urn_in_digits (cs : List Char) (h : cs.all Char.isDigit = true) :
    ∀ i ds, ¬ urnOccursAt cs i ds := by
  rintro i ds ⟨k, hk, hne, hall, t, heq, hnd⟩
  have hu : 'u' ∈ cs.drop i := by
    rw [← heq]
    exact List.mem_append_left _ (List.mem_append_left _ (by decide))
  have humem : 'u' ∈ cs := List.mem_of_mem_drop hu
  have := List.all_eq_true.mp h 'u' humem
  exact absurd this (by decide)

/-- C9 counterexample: extraction is not idempotent: on a URL with a URN
the first application captures the digits, and re-applying extraction to
that bare digit string yields null, not the digits again. -/
theorem c9_idempotent_cx :
    extract_urn (.pstr "urn:li:share:123") = some "123" ∧
    extract_urn (pyOfResult (extract_urn (.pstr "urn:li:share:123"))) = none := by
  decide

/-- C9 amended: re-applying extraction to its own result always yields
null (a successful capture is a bare digit string with no URN pattern,
and a null result is a non-string), so extraction is idempotent exactly
on the inputs where it returns null. -/
theorem c9_idempotence (v : PyVal) :
    extract_urn (pyOfResult (extract_urn v)) = none ∧
    (extract_urn v = none → extract_urn (pyOfResult (extract_urn v)) = extract_urn v) := by
  cases v with
  | other => exact ⟨rfl, fun _ => rfl⟩
  | pstr s =>
    cases h : urnSearch (unquoteChars s.data) with
    | none =>
      have hL : extract_urn (.pstr s) = none := by
        simp only [extract_urn]
        rw [h]
      rw [hL]
      exact ⟨rfl, fun _ => rfl⟩
    | some l =>
      have hL : extract_urn (.pstr s) = some ⟨l⟩ := by
        simp only [extract_urn]
        rw [h]
      rw [hL]
      have hdig : l.all Char.isDigit = true := urnSearch_all_digits _ _ h
      have hnone : extract_urn (.pstr ⟨l⟩) = none := by
        simp only [extract_urn]
        rw [unquoteChars_digits l hdig,
          (urnSearch_eq_none_iff l).mpr (no_urn_in_digits l hdig)]
      refine ⟨hnone, ?_⟩
      intro hcontra
      cases hcontra

/-- Witness for C9 on a pattern-free URL, where extraction fails and
re-application agrees. -/
theorem c9_idempotence_witness :
    extract_urn (pyOfResult (extract_urn (.pstr "https://x.example/path"))) =
      extract_urn (.pstr "https://x.example/path") :=
  (c9_idempotence (.pstr "https://x.example/path")).2 (by decide)
